import Mathlib

/-!
Shallow embedding of the microtuning core of `src/tuning.cpp`
(`inferScaleSize`, `extendFrequencies`, `getFrequencies`).

Frequencies (C `double`) are modelled as exact rationals `ℚ`; a frequency
table (C `double *`) is a total map `ℕ → ℚ` whose relevant indices are the
ones the code reads or writes.  The literals `10.0` and `1e-6` of the source
become the exact rationals `10` and `1/1000000`.  Fallible operations
(a C `assert`) are modelled with `Option`: `none` is an assertion failure.
-/

set_option maxRecDepth 2000

abbrev Freq := ℕ → ℚ

/-- The acceptance test of `inferScaleSize` (tuning.cpp lines 60-61):
frequencies `j, i` and `j+1, i+1` are related by ratio `p`, each within an
absolute tolerance of `1e-6`. -/
def accepts (f : Freq) (p i j : ℕ) : Bool :=
  decide (|f j - (p : ℚ) * f i| < 1/1000000) &&
  decide (|f (j + 1) - (p : ℚ) * f (i + 1)| < 1/1000000)

/-- Innermost loop of `inferScaleSize` (`for (j = i; j <= 126; j++)`):
starting at match index `j` with `n` iterations remaining, return the first
`j` accepted, `none` if the loop exhausts.  Invoked with `n = 127 - j` so
that the final examined index is `126`. -/
def innerLoop (f : Freq) (p i : ℕ) : ℕ → ℕ → Option ℕ
  | _, 0 => none
  | j, n + 1 => if accepts f p i j then some j else innerLoop f p i (j + 1) n

/-- Middle loop of `inferScaleSize` (`for (i = 0; i <= 126; i++)`): bases
whose frequency is not `> 10.0` are skipped; otherwise the inner loop runs
and a found match index `j` ends the search, returning the pair `(i, j)`.
Invoked with `n = 127 - i`. -/
def midLoop (f : Freq) (p : ℕ) : ℕ → ℕ → Option (ℕ × ℕ)
  | _, 0 => none
  | i, n + 1 =>
    if 10 < f i then
      match innerLoop f p i i (127 - i) with
      | some j => some (i, j)
      | none => midLoop f p (i + 1) n
    else midLoop f p (i + 1) n

/-- Outer loop of `inferScaleSize` (`for (period = 2; period <= 100;
period++)`): the first period whose middle loop finds a match ends the
search (the `goto end`), returning the full triple `(p, i, j)`.  Invoked
with `p = 2`, `n = 99`. -/
def outerLoop (f : Freq) : ℕ → ℕ → Option (ℕ × ℕ × ℕ)
  | _, 0 => none
  | p, n + 1 =>
    match midLoop f p 0 127 with
    | some (i, j) => some (p, i, j)
    | none => outerLoop f (p + 1) n

/-- The function `inferScaleSize` (tuning.cpp lines 45-78): run the triple loop; on a
match set `scaleSize = j - i` and keep the current period; after the `end:`
label a `scaleSize` that is still `0` (never set by an acceptance, or set
by an acceptance with `j = i`) makes both results `-1`. -/
def inferScaleSize (f : Freq) : ℤ × ℤ :=
  match outerLoop f 2 99 with
  | some (p, i, j) =>
    if (j : ℤ) - (i : ℤ) = 0 then (-1, -1) else ((j : ℤ) - (i : ℤ), (p : ℤ))
  | none => (-1, -1)

/-- Extension loop of the found-periodicity branch (tuning.cpp lines
94-97): write `t[k] = period * t[k - scaleSize]` at each index `k` of the
list in order. -/
def extendPeriodic (p : ℤ) (s : ℕ) : Freq → List ℕ → Freq
  | t, [] => t
  | t, k :: ks => extendPeriodic p s (Function.update t k ((p : ℚ) * t (k - s))) ks

/-- Extension loop of the no-periodicity branch (tuning.cpp lines
101-104): write `t[k] = t[127]` at each index `k` of the list in order. -/
def extendFlat : Freq → List ℕ → Freq
  | t, [] => t
  | t, k :: ks => extendFlat (Function.update t k (t 127)) ks

/-- The function `extendFrequencies` (tuning.cpp lines 87-106): infer scale size and
period, `assert(scaleSize <= 128)` (modelled as `none` on failure), then
run the extension loop `for (i = 128; i < length; i++)` of the applicable
branch, i.e. over `List.range' 128 (length - 128)`. -/
def extendFrequencies (f : Freq) (length : ℕ) : Option Freq :=
  let r := inferScaleSize f
  if r.1 ≤ 128 then
    some (if 0 < r.1 then
            extendPeriodic r.2 r.1.toNat f (List.range' 128 (length - 128))
          else
            extendFlat f (List.range' 128 (length - 128)))
  else none

/-- The function `getFrequencies` (tuning.cpp lines 113-118) with the sampled 128-entry
MTS-ESP table passed in as `f` (the sampler is an external boundary):
`assert(length >= 128)` (modelled as `none` on failure), then extend. -/
def getFrequencies (f : Freq) (length : ℕ) : Option Freq :=
  if 128 ≤ length then extendFrequencies f length else none

/-- Spec-side description of the search (§4.2 of the spec): all candidate
triples `(p, i, j)` with `2 ≤ p ≤ 100`, `0 ≤ i ≤ 126`, `i ≤ j ≤ 126`, in
increasing lexicographic order of `(p, i, j)`. -/
def specSearchOrder : List (ℕ × ℕ × ℕ) :=
  (List.range' 2 99).flatMap fun p =>
    (List.range' 0 127).flatMap fun i =>
      (List.range' i (127 - i)).map fun j => (p, i, j)

/-- Spec-side acceptance of a candidate triple: the base is not skipped
(frequency above `10.0` Hz) and both consecutive-point checks pass within
the absolute tolerance `1e-6`. -/
def specAccepted (f : Freq) (t : ℕ × ℕ × ℕ) : Bool :=
  decide (10 < f t.2.1) &&
  decide (|f t.2.2 - (t.1 : ℚ) * f t.2.1| < 1/1000000) &&
  decide (|f (t.2.2 + 1) - (t.1 : ℚ) * f (t.2.1 + 1)| < 1/1000000)

/-- Spec-side result: the first accepted candidate in the search order
yields `(j - i, p)`; if none is accepted the result is the sentinel. -/
def specInfer (f : Freq) : ℤ × ℤ :=
  match specSearchOrder.find? (specAccepted f) with
  | some (p, i, j) => ((j : ℤ) - (i : ℤ), (p : ℤ))
  | none => (-1, -1)

/-- Concrete table with a deviation of exactly `1e-5` at the candidate
`(p, i, j) = (2, 0, 1)`: a near miss for the `1e-6` tolerance. -/
def nearMiss : Freq := fun k => if k = 0 then 20 else if k = 1 then 40 + 1/100000 else 0

/-- Concrete table with deviations of exactly `1e-7` at the candidate
`(2, 0, 0)`: a near hit for the `1e-6` tolerance. -/
def nearHit : Freq := fun _ => 1/10000000

/-- Concrete rational stand-in for a 12TET-style table: base 20 Hz, exact
doubling every 12 steps, every step a ratio of at least `21/20`. -/
def tetTable : Freq := fun i => 2 ^ (i / 12) * 20 * (21/20) ^ (i % 12)

/-- The same table scaled down so that every entry is below 10 Hz: a 12TET
style table at a very small base frequency. -/
def lowTable : Freq := fun i => 2 ^ (i / 12) * (1/100000) * (21/20) ^ (i % 12)

/-- Constant table agreeing with `fun _ => 1` on the first 128 entries but
not beyond them. -/
def oneThenTwo : Freq := fun k => if k < 128 then 1 else 2

/-! ### Equivalence of the loop implementation with first-acceptance search -/

theorem innerLoop_eq_find (f : Freq) (p i : ℕ) :
    ∀ n j, innerLoop f p i j n = (List.range' j n).find? fun j' => accepts f p i j' := by
  intro n
  induction n with
  | zero => intro j; simp [innerLoop]
  | succ n ih =>
    intro j
    rw [List.range'_succ]
    by_cases h : accepts f p i j = true
    · rw [List.find?_cons_of_pos _ h]
      simp only [innerLoop, if_pos h]
    · rw [List.find?_cons_of_neg _ h]
      simp only [innerLoop, if_neg h]
      exact ih (j + 1)

theorem midLoop_eq_find (f : Freq) (p : ℕ) :
    ∀ n i, midLoop f p i n =
      ((List.range' i n).flatMap fun i' =>
          (List.range' i' (127 - i')).map fun j => (i', j)).find?
        fun q => decide (10 < f q.1) && accepts f p q.1 q.2 := by
  intro n
  induction n with
  | zero => intro i; simp [midLoop]
  | succ n ih =>
    intro i
    rw [List.range'_succ, List.flatMap_cons, List.find?_append, List.find?_map]
    by_cases h : 10 < f i
    · have hd : (fun q : ℕ × ℕ => decide (10 < f q.1) && accepts f p q.1 q.2) ∘
          (fun j => (i, j)) = fun j => accepts f p i j := by
        funext j
        simp [h]
      rw [hd, ← innerLoop_eq_find f p i (127 - i) i]
      simp only [midLoop, if_pos h]
      cases hinner : innerLoop f p i i (127 - i) with
      | some j => simp
      | none => simp [ih (i + 1)]
    · rw [List.find?_eq_none.2 (by
        intro j _
        simp [h])]
      simp only [midLoop, if_neg h, Option.map_none, Option.none_or]
      exact ih (i + 1)

theorem outerLoop_eq_find (f : Freq) :
    ∀ n p, outerLoop f p n =
      ((List.range' p n).flatMap fun p' =>
          (List.range' 0 127).flatMap fun i =>
            (List.range' i (127 - i)).map fun j => (p', i, j)).find?
        (specAccepted f) := by
  intro n
  induction n with
  | zero => intro p; simp [outerLoop]
  | succ n ih =>
    intro p
    rw [List.range'_succ, List.flatMap_cons, List.find?_append]
    have hblock : ((List.range' 0 127).flatMap fun i =>
          (List.range' i (127 - i)).map fun j => (p, i, j))
        = (((List.range' 0 127).flatMap fun i =>
            (List.range' i (127 - i)).map fun j => (i, j)).map
              fun q : ℕ × ℕ => (p, q.1, q.2)) := by
      rw [List.map_flatMap]
      simp only [List.map_map]
      rfl
    have hd : specAccepted f ∘ (fun q : ℕ × ℕ => (p, q.1, q.2))
        = fun q : ℕ × ℕ => decide (10 < f q.1) && accepts f p q.1 q.2 := by
      funext q
      simp [specAccepted, accepts, Bool.and_assoc]
    rw [hblock, List.find?_map, hd, ← midLoop_eq_find f p 127 0]
    simp only [outerLoop]
    cases hmid : midLoop f p 0 127 with
    | some q =>
      obtain ⟨i, j⟩ := q
      simp
    | none => simp [ih (p + 1)]


/-- Facts about any triple returned by the first-acceptance search: its
bounds come from the search ranges and its acceptance from the predicate. -/
theorem specFound_facts (f : Freq) {p i j : ℕ}
    (hfind : specSearchOrder.find? (specAccepted f) = some (p, i, j)) :
    2 ≤ p ∧ p ≤ 100 ∧ i ≤ 126 ∧ i ≤ j ∧ j ≤ 126 ∧ 10 < f i ∧
      |f j - (p : ℚ) * f i| < 1/1000000 ∧
      |f (j + 1) - (p : ℚ) * f (i + 1)| < 1/1000000 := by
  have hmem := List.mem_of_find?_eq_some hfind
  have hacc := List.find?_some hfind
  simp only [specAccepted, Bool.and_eq_true, decide_eq_true_eq] at hacc
  rcases List.mem_flatMap.1 hmem with ⟨p', hp', hmem2⟩
  rcases List.mem_flatMap.1 hmem2 with ⟨i', hi', hmem3⟩
  rcases List.mem_map.1 hmem3 with ⟨j', hj', heq⟩
  rcases List.mem_range'.1 hp' with ⟨a, ha, rfl⟩
  rcases List.mem_range'.1 hi' with ⟨b, hb, rfl⟩
  rcases List.mem_range'.1 hj' with ⟨c, hc, rfl⟩
  injection heq with hpe rest
  injection rest with hie hje
  subst hpe
  subst hie
  subst hje
  exact ⟨by omega, by omega, by omega, by omega, by omega,
    hacc.1.1, hacc.1.2, hacc.2⟩

/-- An acceptance with `j = i` is impossible for a base above the 10 Hz
floor: the deviation `|f i - p * f i|` is at least `f i > 10`. -/
theorem found_ne (f : Freq) {p i : ℕ} (hp : 2 ≤ p) (h10 : 10 < f i) :
    ¬ |f i - (p : ℚ) * f i| < 1/1000000 := by
  intro h1
  have hp2 : (2 : ℚ) ≤ (p : ℚ) := by exact_mod_cast hp
  have habs : |f i - (p : ℚ) * f i| = ((p : ℚ) - 1) * f i := by
    rw [abs_sub_comm, show (p : ℚ) * f i - f i = ((p : ℚ) - 1) * f i by ring]
    exact abs_of_nonneg (by nlinarith)
  nlinarith

/-- The loop implementation agrees with the spec-side first-acceptance
search everywhere (the `scaleSize == 0` sentinel collision is impossible,
by `found_ne`). -/
theorem inferScaleSize_eq_specInfer (f : Freq) : inferScaleSize f = specInfer f := by
  have hout : outerLoop f 2 99 = specSearchOrder.find? (specAccepted f) := by
    rw [outerLoop_eq_find f 99 2]
    rfl
  unfold inferScaleSize specInfer
  rw [hout]
  rcases hfind : specSearchOrder.find? (specAccepted f) with _ | ⟨p, i, j⟩
  · rfl
  · obtain ⟨hp, _, _, hij, _, h10, h1, _⟩ := specFound_facts f hfind
    have hne : i ≠ j := by
      intro hE
      subst hE
      exact found_ne f hp h10 h1
    dsimp only
    rw [if_neg (by omega)]

/-- Shape of every inference result: the sentinel, or scale size in
`[1, 126]` with period in `[2, 100]`. -/
theorem infer_shape (f : Freq) :
    inferScaleSize f = (-1, -1) ∨
      (1 ≤ (inferScaleSize f).1 ∧ (inferScaleSize f).1 ≤ 126 ∧
        2 ≤ (inferScaleSize f).2 ∧ (inferScaleSize f).2 ≤ 100) := by
  rw [inferScaleSize_eq_specInfer f]
  unfold specInfer
  rcases hfind : specSearchOrder.find? (specAccepted f) with _ | ⟨p, i, j⟩
  · left
    rfl
  · obtain ⟨hp, hp100, hi, hij, hj, h10, h1, _⟩ := specFound_facts f hfind
    have hne : i ≠ j := by
      intro hE
      subst hE
      exact found_ne f hp h10 h1
    right
    dsimp only
    exact ⟨by omega, by omega, by omega, by omega⟩

/-- The first component of the inference result never exceeds 128, so the
`assert(scaleSize <= 128)` of `extendFrequencies` always passes. -/
theorem infer_fst_le_128 (f : Freq) : (inferScaleSize f).1 ≤ 128 := by
  rcases infer_shape f with h | h
  · rw [h]
    norm_num
  · omega

/-! ### Frame and recurrence lemmas for the extension loops -/

theorem extendPeriodic_frame (p : ℤ) (s : ℕ) :
    ∀ (L : List ℕ) (t : Freq) (k : ℕ), k ∉ L → extendPeriodic p s t L k = t k := by
  intro L
  induction L with
  | nil =>
    intro t k _
    rfl
  | cons a as ih =>
    intro t k hk
    simp only [List.mem_cons, not_or] at hk
    simp only [extendPeriodic]
    rw [ih _ _ hk.2, Function.update_noteq hk.1]

theorem extendFlat_frame :
    ∀ (L : List ℕ) (t : Freq) (k : ℕ), k ∉ L → extendFlat t L k = t k := by
  intro L
  induction L with
  | nil =>
    intro t k _
    rfl
  | cons a as ih =>
    intro t k hk
    simp only [List.mem_cons, not_or] at hk
    simp only [extendFlat]
    rw [ih _ _ hk.2, Function.update_noteq hk.1]

theorem extendFlat_mem :
    ∀ (L : List ℕ) (t : Freq) (k : ℕ), 127 ∉ L → k ∈ L → extendFlat t L k = t 127 := by
  intro L
  induction L with
  | nil =>
    intro t k _ hk
    cases hk
  | cons a as ih =>
    intro t k h127 hk
    simp only [List.mem_cons, not_or] at h127
    by_cases hkas : k ∈ as
    · simp only [extendFlat]
      rw [ih _ _ h127.2 hkas, Function.update_noteq h127.1]
    · have hka : k = a := by
        rcases List.mem_cons.1 hk with h | h
        · exact h
        · exact absurd h hkas
      subst hka
      simp only [extendFlat]
      rw [extendFlat_frame as _ _ hkas, Function.update_same]

theorem extendPeriodic_rec (p : ℤ) (s : ℕ) (hs : 1 ≤ s) :
    ∀ (n start : ℕ) (t : Freq), 1 ≤ start →
      ∀ k, start ≤ k → k < start + n →
        extendPeriodic p s t (List.range' start n) k =
          (p : ℚ) * extendPeriodic p s t (List.range' start n) (k - s) := by
  intro n
  induction n with
  | zero =>
    intro start t _ k h1 h2
    omega
  | succ n ih =>
    intro start t hstart k hk1 hk2
    rw [List.range'_succ]
    simp only [extendPeriodic]
    rcases Nat.eq_or_lt_of_le hk1 with hE | hlt
    · have h1 : start ∉ List.range' (start + 1) n := by
        intro hmem
        rcases List.mem_range'.1 hmem with ⟨m, hm, hE2⟩
        omega
      have h2 : start - s ∉ List.range' (start + 1) n := by
        intro hmem
        rcases List.mem_range'.1 hmem with ⟨m, hm, hE2⟩
        omega
      subst hE
      rw [extendPeriodic_frame _ _ _ _ _ h1, extendPeriodic_frame _ _ _ _ _ h2,
        Function.update_same, Function.update_noteq (by omega)]
    · exact ih (start + 1) _ (by omega) k hlt (by omega)

/-! ### Extension branch selection -/

/-- When inference finds `(s, p)` with `0 < s`, `extendFrequencies` takes
the periodic branch (the assert passes since `s ≤ 128`). -/
theorem extendFrequencies_found (f : Freq) (s p : ℤ) (len : ℕ)
    (hf : inferScaleSize f = (s, p)) (hs : 0 < s) :
    extendFrequencies f len =
      some (extendPeriodic p s.toNat f (List.range' 128 (len - 128))) := by
  have hle := infer_fst_le_128 f
  unfold extendFrequencies
  rw [hf] at hle ⊢
  rw [if_pos hle, if_pos hs]

/-- When inference reports the sentinel, `extendFrequencies` takes the
flat-continuation branch. -/
theorem extendFrequencies_notfound (f : Freq) (len : ℕ)
    (hf : inferScaleSize f = (-1, -1)) :
    extendFrequencies f len = some (extendFlat f (List.range' 128 (len - 128))) := by
  unfold extendFrequencies
  rw [hf]
  have h1 : ((-1 : ℤ), (-1 : ℤ)).1 ≤ 128 := by norm_num
  have h2 : ¬ 0 < ((-1 : ℤ), (-1 : ℤ)).1 := by norm_num
  rw [if_pos h1, if_neg h2]

/-- For `len < 128` the extension loop body never runs: the table comes
back unchanged (and no assertion fires). -/
theorem extendFrequencies_short (f : Freq) (len : ℕ) (hlen : len < 128) :
    extendFrequencies f len = some f := by
  unfold extendFrequencies
  rw [if_pos (infer_fst_le_128 f)]
  have hnil : List.range' 128 (len - 128) = [] := by
    have h0 : len - 128 = 0 := by omega
    rw [h0]
    exact List.range'_zero
  rw [hnil]
  split
  · rfl
  · rfl

/-- The extension always yields a table, and it never writes below
index 128. -/
theorem extendFrequencies_frame (f : Freq) (len : ℕ) :
    ∃ ext, extendFrequencies f len = some ext ∧ ∀ k, k < 128 → ext k = f k := by
  unfold extendFrequencies
  rw [if_pos (infer_fst_le_128 f)]
  refine ⟨_, rfl, ?_⟩
  intro k hk
  have hk' : k ∉ List.range' 128 (len - 128) := by
    intro hmem
    rcases List.mem_range'.1 hmem with ⟨m, hm, hE⟩
    omega
  split
  · exact extendPeriodic_frame _ _ _ _ _ hk'
  · exact extendFlat_frame _ _ _ hk'

/-! ### The claims -/

/-- C1: for every frequency table, `inferScaleSize` returns the result of
the first acceptance in the fixed search order — period ratios `2..100`
outermost, within each period bases `0..126` in increasing order skipping
bases with frequency `≤ 10` Hz, within each base match indices `i..126` in
increasing order; the first accepted triple yields `(j - i, p)` and stops
the whole search, and if no triple is accepted the result is `(-1, -1)`. -/
theorem c1_first_acceptance (f : Freq) : inferScaleSize f = specInfer f :=
  inferScaleSize_eq_specInfer f

/-- C10: the result of `inferScaleSize` is always either exactly the
sentinel `(-1, -1)` or a pair `(s, p)` with `1 ≤ s ≤ 126` and
`2 ≤ p ≤ 100`; in particular a genuine found result never collides with
the internal `scaleSize = 0` not-found sentinel, the two shapes being
mutually exclusive. -/
theorem c10_result_shape (f : Freq) :
    inferScaleSize f = (-1, -1) ∨
      (1 ≤ (inferScaleSize f).1 ∧ (inferScaleSize f).1 ≤ 126 ∧
        2 ≤ (inferScaleSize f).2 ∧ (inferScaleSize f).2 ≤ 100) :=
  infer_shape f

/-- C5: whenever `inferScaleSize` reports a found result, the scale size
lies in `[1, 128]`, and consequently the defensive `assert(scaleSize <=
128)` of `extendFrequencies` can never fire: extension always produces a
table. -/
theorem c5_scale_size_bound (f : Freq) (len : ℕ) (s p : ℤ)
    (hf : inferScaleSize f = (s, p)) (hfound : s ≠ -1) :
    (1 ≤ s ∧ s ≤ 128) ∧ (extendFrequencies f len).isSome := by
  constructor
  · rcases infer_shape f with h | h
    · rw [hf] at h
      injection h with h1 h2
      exact absurd h1 hfound
    · rw [hf] at h
      exact ⟨h.1, by omega⟩
  · unfold extendFrequencies
    rw [if_pos (infer_fst_le_128 f)]
    rfl

/-- C2: if inference finds `(s, p)` with `s` positive then for every
requested length the extended table satisfies the exact recurrence
`ext k = p * ext (k - s)` at every extended index `k ∈ [128, len)`, the
recurrence passing through previously extended entries once
`k - s ≥ 128`. -/
theorem c2_periodic_recurrence (f : Freq) (s p : ℤ) (len : ℕ)
    (hf : inferScaleSize f = (s, p)) (hs : 0 < s) (hlen : 128 ≤ len) :
    ∃ ext, extendFrequencies f len = some ext ∧
      ∀ k, 128 ≤ k → k < len → ext k = (p : ℚ) * ext (k - s.toNat) := by
  refine ⟨_, extendFrequencies_found f s p len hf hs, ?_⟩
  intro k hk1 hk2
  exact extendPeriodic_rec p s.toNat (by omega) (len - 128) 128 f (by omega) k hk1 (by omega)

/-- C3: if inference reports the sentinel then for every requested length
every extended entry is the flat continuation `ext k = ext 127`. -/
theorem c3_flat_continuation (f : Freq) (len : ℕ)
    (hf : inferScaleSize f = (-1, -1)) (hlen : 128 ≤ len) :
    ∃ ext, extendFrequencies f len = some ext ∧
      ∀ k, 128 ≤ k → k < len → ext k = ext 127 := by
  refine ⟨_, extendFrequencies_notfound f len hf, ?_⟩
  intro k hk1 hk2
  have h127 : 127 ∉ List.range' 128 (len - 128) := by
    intro hmem
    rcases List.mem_range'.1 hmem with ⟨m, hm, hE⟩
    omega
  have hkmem : k ∈ List.range' 128 (len - 128) := by
    exact List.mem_range'.2 ⟨k - 128, by omega, by omega⟩
  rw [extendFlat_mem _ _ _ h127 hkmem, extendFlat_frame _ _ _ h127]

/-- C4: for every table and every requested length at least 128,
`extendFrequencies` leaves the first 128 entries exactly unchanged. -/
theorem c4_prefix_unchanged (f : Freq) (len : ℕ) (hlen : 128 ≤ len) :
    ∃ ext, extendFrequencies f len = some ext ∧ ∀ k, k < 128 → ext k = f k :=
  extendFrequencies_frame f len

/-- C6 counterexample: at length `0 < 128`, `extendFrequencies` returns a
result instead of asserting, so the claim that both table-extension
operations assert on `length < 128` fails on the code. -/
theorem c6_counterexample : (extendFrequencies (fun _ => 1) 0).isSome = true := by
  rw [extendFrequencies_short (fun _ => 1) 0 (by norm_num)]
  rfl

/-- C6 (amended): for every length `< 128` the facade `getFrequencies`
asserts (no result), while `extendFrequencies` performs no length check:
it runs no extension step and returns the table unchanged. -/
theorem c6_amended_short_length (f : Freq) (len : ℕ) (hlen : len < 128) :
    getFrequencies f len = none ∧ extendFrequencies f len = some f := by
  constructor
  · unfold getFrequencies
    rw [if_neg (by omega)]
  · exact extendFrequencies_short f len hlen

theorem c6_amended_short_length_witness :
    (0 : ℕ) < 128 ∧ getFrequencies (fun _ => 1) 0 = none ∧
      extendFrequencies (fun _ => 1) 0 = some (fun _ => 1) := by
  obtain ⟨h1, h2⟩ := c6_amended_short_length (fun _ => 1) 0 (by norm_num)
  exact ⟨by norm_num, h1, h2⟩

/-- C7: acceptance of a candidate uses a strict absolute tolerance of
`1e-6` on both consecutive-point checks; a deviation of exactly `1e-5` is
rejected and deviations of exactly `1e-7` are accepted. -/
theorem c7_tolerance (f : Freq) (p i j : ℕ) :
    (accepts f p i j = true ↔
        |f j - (p : ℚ) * f i| < 1/1000000 ∧
        |f (j + 1) - (p : ℚ) * f (i + 1)| < 1/1000000) ∧
    (|f j - (p : ℚ) * f i| = 1/100000 → accepts f p i j = false) ∧
    (|f j - (p : ℚ) * f i| = 1/10000000 →
      |f (j + 1) - (p : ℚ) * f (i + 1)| = 1/10000000 → accepts f p i j = true) := by
  refine ⟨?_, ?_, ?_⟩
  · unfold accepts
    rw [Bool.and_eq_true, decide_eq_true_eq, decide_eq_true_eq]
  · intro h
    simp only [accepts, h]
    norm_num
  · intro h1 h2
    simp only [accepts, h1, h2]
    norm_num

theorem c7_tolerance_witness :
    (|nearMiss 1 - ((2 : ℕ) : ℚ) * nearMiss 0| = 1/100000 ∧
      accepts nearMiss 2 0 1 = false) ∧
    (|nearHit 0 - ((2 : ℕ) : ℚ) * nearHit 0| = 1/10000000 ∧
      |nearHit 1 - ((2 : ℕ) : ℚ) * nearHit 1| = 1/10000000 ∧
      accepts nearHit 2 0 0 = true) := by
  have hmiss : |nearMiss 1 - ((2 : ℕ) : ℚ) * nearMiss 0| = 1/100000 := by
    norm_num [nearMiss]
  have hhit : |nearHit 0 - ((2 : ℕ) : ℚ) * nearHit 0| = 1/10000000 := by
    norm_num [nearHit]
  have hhit1 : |nearHit 1 - ((2 : ℕ) : ℚ) * nearHit 1| = 1/10000000 := by
    norm_num [nearHit]
  exact ⟨⟨hmiss, (c7_tolerance nearMiss 2 0 1).2.1 hmiss⟩,
    ⟨hhit, hhit1, (c7_tolerance nearHit 2 0 0).2.2 hhit hhit1⟩⟩

/-! ### The search reads only indices 0..127 -/

theorem accepts_congr (f g : Freq) (hfg : ∀ m, m < 128 → f m = g m)
    (p i j : ℕ) (hi : i + 1 ≤ 127) (hj : j + 1 ≤ 127) :
    accepts f p i j = accepts g p i j := by
  unfold accepts
  rw [hfg i (by omega), hfg j (by omega), hfg (i + 1) (by omega), hfg (j + 1) (by omega)]

theorem innerLoop_congr (f g : Freq) (hfg : ∀ m, m < 128 → f m = g m)
    (p i : ℕ) (hi : i + 1 ≤ 127) :
    ∀ n j, j + n ≤ 127 → innerLoop f p i j n = innerLoop g p i j n := by
  intro n
  induction n with
  | zero =>
    intro j _
    rfl
  | succ n ih =>
    intro j hjn
    simp only [innerLoop]
    rw [accepts_congr f g hfg p i j hi (by omega)]
    by_cases h : accepts g p i j = true
    · rw [if_pos h, if_pos h]
    · rw [if_neg h, if_neg h]
      exact ih (j + 1) (by omega)

theorem midLoop_congr (f g : Freq) (hfg : ∀ m, m < 128 → f m = g m) (p : ℕ) :
    ∀ n i, i + n ≤ 127 → midLoop f p i n = midLoop g p i n := by
  intro n
  induction n with
  | zero =>
    intro i _
    rfl
  | succ n ih =>
    intro i hin
    simp only [midLoop]
    rw [hfg i (by omega)]
    by_cases h : 10 < g i
    · rw [if_pos h, if_pos h,
        innerLoop_congr f g hfg p i (by omega) (127 - i) i (by omega)]
      cases innerLoop g p i i (127 - i) with
      | some j => rfl
      | none => exact ih (i + 1) (by omega)
    · rw [if_neg h, if_neg h]
      exact ih (i + 1) (by omega)

theorem outerLoop_congr (f g : Freq) (hfg : ∀ m, m < 128 → f m = g m) :
    ∀ n p, outerLoop f p n = outerLoop g p n := by
  intro n
  induction n with
  | zero =>
    intro p
    rfl
  | succ n ih =>
    intro p
    simp only [outerLoop]
    rw [midLoop_congr f g hfg p 127 0 (by omega)]
    cases midLoop g p 0 127 with
    | some q => rfl
    | none => exact ih (p + 1)

/-- C9: `inferScaleSize` is a pure, deterministic function of the 128-entry
input: two tables equal on indices 0..127 yield equal results. -/
theorem c9_pure_function (f g : Freq) (hfg : ∀ m, m < 128 → f m = g m) :
    inferScaleSize f = inferScaleSize g := by
  unfold inferScaleSize
  rw [outerLoop_congr f g hfg 99 2]

theorem c9_pure_function_witness :
    (∀ m, m < 128 → (fun _ => (1 : ℚ)) m = oneThenTwo m) ∧
      inferScaleSize (fun _ => 1) = inferScaleSize oneThenTwo := by
  have hfg : ∀ m, m < 128 → (fun _ => (1 : ℚ)) m = oneThenTwo m := by
    intro m hm
    simp [oneThenTwo, hm]
  exact ⟨hfg, c9_pure_function (fun _ => 1) oneThenTwo hfg⟩

/-! ### Direct first-acceptance and no-acceptance loop lemmas -/

theorem innerLoop_first (f : Freq) (p i : ℕ) :
    ∀ n j j', j ≤ j' → j' < j + n → accepts f p i j' = true →
      (∀ m, j ≤ m → m < j' → accepts f p i m = false) →
      innerLoop f p i j n = some j' := by
  intro n
  induction n with
  | zero =>
    intro j j' h1 h2 _ _
    omega
  | succ n ih =>
    intro j j' h1 h2 hacc hrej
    simp only [innerLoop]
    rcases Nat.eq_or_lt_of_le h1 with hE | hlt
    · subst hE
      rw [if_pos hacc]
    · have hj := hrej j le_rfl hlt
      rw [if_neg (by simp [hj])]
      exact ih (j + 1) j' hlt (by omega) hacc (fun m hm1 hm2 => hrej m (by omega) hm2)

theorem midLoop_first (f : Freq) (p : ℕ) :
    ∀ n i i₀ j₀, i ≤ i₀ → i₀ < i + n →
      (∀ m, i ≤ m → m < i₀ → ¬ 10 < f m) → 10 < f i₀ →
      innerLoop f p i₀ i₀ (127 - i₀) = some j₀ →
      midLoop f p i n = some (i₀, j₀) := by
  intro n
  induction n with
  | zero =>
    intro i i₀ j₀ h1 h2 _ _ _
    omega
  | succ n ih =>
    intro i i₀ j₀ h1 h2 hskip h10 hinner
    simp only [midLoop]
    rcases Nat.eq_or_lt_of_le h1 with hE | hlt
    · subst hE
      rw [if_pos h10, hinner]
    · rw [if_neg (hskip i le_rfl hlt)]
      exact ih (i + 1) i₀ j₀ hlt (by omega)
        (fun m hm1 hm2 => hskip m (by omega) hm2) h10 hinner

theorem outerLoop_first_period (f : Freq) {i j : ℕ}
    (hmid : midLoop f 2 0 127 = some (i, j)) :
    outerLoop f 2 99 = some (2, i, j) := by
  show outerLoop f 2 (98 + 1) = some (2, i, j)
  simp only [outerLoop]
  rw [hmid]

theorem midLoop_none (f : Freq) (p : ℕ) :
    ∀ n i, (∀ m, i ≤ m → m < i + n → ¬ 10 < f m) → midLoop f p i n = none := by
  intro n
  induction n with
  | zero =>
    intro i _
    rfl
  | succ n ih =>
    intro i h
    simp only [midLoop]
    rw [if_neg (h i le_rfl (by omega))]
    exact ih (i + 1) (fun m hm1 hm2 => h m (by omega) (by omega))

theorem outerLoop_none (f : Freq) (hmid : ∀ p, midLoop f p 0 127 = none) :
    ∀ n p, outerLoop f p n = none := by
  intro n
  induction n with
  | zero =>
    intro p
    rfl
  | succ n ih =>
    intro p
    simp only [outerLoop]
    rw [hmid p]
    exact ih (p + 1)

/-- A table with no base frequency above the 10 Hz floor among indices
0..126 defeats the search entirely: the sentinel is returned. -/
theorem infer_notFound (f : Freq) (hlow : ∀ m, m < 127 → ¬ 10 < f m) :
    inferScaleSize f = (-1, -1) := by
  unfold inferScaleSize
  rw [outerLoop_none f
    (fun p => midLoop_none f p 127 0 (fun m hm1 hm2 => hlow m (by omega))) 99 2]

/-- A table perfectly periodic with ratio 2 and scale size 12 whose steps
all grow by at least the ratio `21/20` (as 12TET steps do) is inferred as
`(12, 2)`, provided some base index at most 114 rises above the 10 Hz
floor. -/
theorem infer_of_tet_shape (f : Freq)
    (hper : ∀ i, i + 12 ≤ 127 → f (i + 12) = 2 * f i)
    (hstep : ∀ i, i + 1 ≤ 127 → (21/20) * f i ≤ f (i + 1))
    (hbase : 10 < f 114) :
    inferScaleSize f = (12, 2) := by
  have hex : ∃ i, 10 < f i := ⟨114, hbase⟩
  set i₀ := Nat.find hex with hi₀def
  have hi₀ : 10 < f i₀ := Nat.find_spec hex
  have hmin : ∀ m, m < i₀ → ¬ 10 < f m := fun m hm => Nat.find_min hex hm
  have hi₀le : i₀ ≤ 114 := Nat.find_min' hex hbase
  have key : ∀ d : ℕ, i₀ + d ≤ 127 → 0 < f (i₀ + d) := by
    intro d
    induction d with
    | zero =>
      intro _
      simp only [Nat.add_zero]
      linarith
    | succ d ihd =>
      intro hle
      have hp1 := ihd (by omega)
      have hst := hstep (i₀ + d) (by omega)
      have hE : i₀ + d + 1 = i₀ + (d + 1) := by omega
      rw [hE] at hst
      nlinarith
  have hpos : ∀ a, i₀ ≤ a → a ≤ 127 → 0 < f a := by
    intro a ha1 ha2
    have h := key (a - i₀) (by omega)
    have hE : i₀ + (a - i₀) = a := by omega
    rwa [hE] at h
  have hmono : ∀ a d, i₀ ≤ a → a + d ≤ 127 → f a ≤ f (a + d) := by
    intro a d ha
    induction d with
    | zero =>
      intro _
      simp
    | succ d ihd =>
      intro hle
      have h1 := ihd (by omega)
      have h2 := hstep (a + d) (by omega)
      have h3 := hpos (a + d) (by omega) (by omega)
      have hE : a + d + 1 = a + (d + 1) := by omega
      rw [hE] at h2
      nlinarith
  have h12 : f (i₀ + 12) = 2 * f i₀ := hper i₀ (by omega)
  have h13 : f (i₀ + 13) = 2 * f (i₀ + 1) := by
    have h := hper (i₀ + 1) (by omega)
    have hE : i₀ + 1 + 12 = i₀ + 13 := by omega
    rwa [hE] at h
  have hst11 : (21/20) * f (i₀ + 11) ≤ f (i₀ + 12) := by
    have h := hstep (i₀ + 11) (by omega)
    have hE : i₀ + 11 + 1 = i₀ + 12 := by omega
    rwa [hE] at h
  have hrej : ∀ m, i₀ ≤ m → m < i₀ + 12 → accepts f 2 i₀ m = false := by
    intro m hm1 hm2
    have hfm : f m ≤ f (i₀ + 11) := by
      have h := hmono m (i₀ + 11 - m) hm1 (by omega)
      have hE : m + (i₀ + 11 - m) = i₀ + 11 := by omega
      rwa [hE] at h
    have hgap : 1/1000000 ≤ (2 : ℚ) * f i₀ - f m := by nlinarith
    have habs : ¬ |f m - ((2 : ℕ) : ℚ) * f i₀| < 1/1000000 := by
      push_cast
      intro hcon
      rw [abs_sub_comm, abs_of_pos (by linarith)] at hcon
      linarith
    unfold accepts
    rw [decide_eq_false habs, Bool.false_and]
  have hacc : accepts f 2 i₀ (i₀ + 12) = true := by
    unfold accepts
    have hE : i₀ + 12 + 1 = i₀ + 13 := by omega
    rw [hE, h12, h13]
    push_cast
    simp
  have hinner : innerLoop f 2 i₀ i₀ (127 - i₀) = some (i₀ + 12) :=
    innerLoop_first f 2 i₀ (127 - i₀) i₀ (i₀ + 12) (by omega) (by omega) hacc
      (fun m hm1 hm2 => hrej m hm1 hm2)
  have hmid : midLoop f 2 0 127 = some (i₀, i₀ + 12) :=
    midLoop_first f 2 127 0 i₀ (i₀ + 12) (by omega) (by omega)
      (fun m _ hm2 => hmin m hm2) hi₀ hinner
  unfold inferScaleSize
  rw [outerLoop_first_period f hmid]
  dsimp only
  rw [if_neg (by omega)]
  simp only [Prod.mk.injEq]
  exact ⟨by omega, by omega⟩

/-- C8 (amended): a table that is perfectly periodic with frequency ratio
2 and scale size 12 and has 12TET-style step growth (each step a ratio of
at least `21/20`, which the 12TET step `2^(1/12)` exceeds) is inferred as
scale size 12, period 2 — provided some base index at most 114 rises above
the 10 Hz floor (at a sufficiently small base frequency every base is
skipped and the sentinel is returned instead). -/
theorem c8_amended_tet (f : Freq)
    (hper : ∀ i, i + 12 ≤ 127 → f (i + 12) = 2 * f i)
    (hstep : ∀ i, i + 1 ≤ 127 → (21/20) * f i ≤ f (i + 1))
    (hbase : 10 < f 114) :
    inferScaleSize f = (12, 2) :=
  infer_of_tet_shape f hper hstep hbase

/-! ### Arithmetic facts about the concrete tables -/

theorem tetTable_periodic (i : ℕ) : tetTable (i + 12) = 2 * tetTable i := by
  unfold tetTable
  have hdiv : (i + 12) / 12 = i / 12 + 1 := by omega
  have hmod : (i + 12) % 12 = i % 12 := by omega
  rw [hdiv, hmod, pow_succ]
  ring

theorem tetTable_step (i : ℕ) : (21/20) * tetTable i ≤ tetTable (i + 1) := by
  unfold tetTable
  rcases Nat.lt_or_ge (i % 12) 11 with h | h
  · have hdiv : (i + 1) / 12 = i / 12 := by omega
    have hmod : (i + 1) % 12 = i % 12 + 1 := by omega
    rw [hdiv, hmod, pow_succ]
    exact le_of_eq (by ring)
  · have h11 : i % 12 = 11 := by omega
    have hdiv : (i + 1) / 12 = i / 12 + 1 := by omega
    have hmod : (i + 1) % 12 = 0 := by omega
    rw [hdiv, hmod, h11, pow_zero]
    have h2p : (2:ℚ) ^ (i / 12 + 1) = 2 * 2 ^ (i / 12) := by
      rw [pow_succ]
      ring
    rw [h2p]
    have hc : ((21:ℚ)/20) * (21/20) ^ 11 ≤ 2 := by norm_num
    have hkey : ((21:ℚ)/20) * (21/20) ^ 11 * (20 * 2 ^ (i / 12))
        ≤ 2 * (20 * 2 ^ (i / 12)) :=
      mul_le_mul_of_nonneg_right hc (by positivity)
    linarith [hkey]

theorem tetTable_gt10 : 10 < tetTable 114 := by
  unfold tetTable
  norm_num

theorem lowTable_periodic (i : ℕ) : lowTable (i + 12) = 2 * lowTable i := by
  unfold lowTable
  have hdiv : (i + 12) / 12 = i / 12 + 1 := by omega
  have hmod : (i + 12) % 12 = i % 12 := by omega
  rw [hdiv, hmod, pow_succ]
  ring

theorem lowTable_step (i : ℕ) : (21/20) * lowTable i ≤ lowTable (i + 1) := by
  unfold lowTable
  rcases Nat.lt_or_ge (i % 12) 11 with h | h
  · have hdiv : (i + 1) / 12 = i / 12 := by omega
    have hmod : (i + 1) % 12 = i % 12 + 1 := by omega
    rw [hdiv, hmod, pow_succ]
    exact le_of_eq (by ring)
  · have h11 : i % 12 = 11 := by omega
    have hdiv : (i + 1) / 12 = i / 12 + 1 := by omega
    have hmod : (i + 1) % 12 = 0 := by omega
    rw [hdiv, hmod, h11, pow_zero]
    have h2p : (2:ℚ) ^ (i / 12 + 1) = 2 * 2 ^ (i / 12) := by
      rw [pow_succ]
      ring
    rw [h2p]
    have hc : ((21:ℚ)/20) * (21/20) ^ 11 ≤ 2 := by norm_num
    have hkey : ((21:ℚ)/20) * (21/20) ^ 11 * ((1/100000) * 2 ^ (i / 12))
        ≤ 2 * ((1/100000) * 2 ^ (i / 12)) :=
      mul_le_mul_of_nonneg_right hc (by positivity)
    linarith [hkey]

theorem lowTable_le10 (m : ℕ) (hm : m < 127) : ¬ 10 < lowTable m := by
  unfold lowTable
  have h1 : (2:ℚ) ^ (m / 12) ≤ 2 ^ 10 := by
    apply pow_le_pow_right₀ (by norm_num) (by omega)
  have h2 : ((21:ℚ)/20) ^ (m % 12) ≤ (21/20) ^ 11 := by
    apply pow_le_pow_right₀ (by norm_num) (by omega)
  have hb1 : (0:ℚ) < 2 ^ (m / 12) := by positivity
  have hb2 : (0:ℚ) < ((21:ℚ)/20) ^ (m % 12) := by positivity
  intro hcon
  have hbound : (2:ℚ) ^ (m / 12) * (1/100000) * (21/20) ^ (m % 12)
      ≤ 2 ^ 10 * (1/100000) * (21/20) ^ 11 := by
    have hstep1 : (2:ℚ) ^ (m / 12) * (1/100000) ≤ 2 ^ 10 * (1/100000) := by
      linarith
    have hr : (0:ℚ) ≤ 2 ^ (m / 12) * (1/100000) := by positivity
    calc (2:ℚ) ^ (m / 12) * (1/100000) * (21/20) ^ (m % 12)
        ≤ 2 ^ (m / 12) * (1/100000) * (21/20) ^ 11 := by
          exact mul_le_mul_of_nonneg_left h2 hr
      _ ≤ 2 ^ 10 * (1/100000) * (21/20) ^ 11 := by
          apply mul_le_mul_of_nonneg_right hstep1
          positivity
  rw [show ((2:ℚ) ^ 10 * (1/100000) * (21/20) ^ 11)
      = 1024 * (1/100000) * (21/20) ^ 11 from by norm_num] at hbound
  nlinarith [hbound, pow_pos (show (0:ℚ) < 21/20 from by norm_num) 11,
    show ((21:ℚ)/20) ^ 11 ≤ 2 from by norm_num]

/-- Inference on the concrete 12TET-style rational table. -/
theorem tet_infer : inferScaleSize tetTable = (12, 2) :=
  infer_of_tet_shape tetTable (fun i _ => tetTable_periodic i)
    (fun i _ => tetTable_step i) tetTable_gt10

/-- Inference on the constant table `1`: every base is at the floor, so
the sentinel is returned. -/
theorem one_infer : inferScaleSize (fun _ => 1) = (-1, -1) :=
  infer_notFound (fun _ => 1) (fun m _ => by norm_num)

/-- C8 counterexample: `lowTable` is perfectly periodic with ratio 2 and
scale size 12 and has 12TET-style step growth, i.e. it is a 12TET-style
table at a very small base frequency, yet inference returns the sentinel
rather than `(12, 2)`: every base index sits at or below the 10 Hz floor
and is skipped. -/
theorem c8_counterexample :
    (∀ i, i + 12 ≤ 127 → lowTable (i + 12) = 2 * lowTable i) ∧
    (∀ i, i + 1 ≤ 127 → (21/20) * lowTable i ≤ lowTable (i + 1)) ∧
    inferScaleSize lowTable ≠ (12, 2) := by
  have hnf : inferScaleSize lowTable = (-1, -1) :=
    infer_notFound lowTable (fun m hm => lowTable_le10 m hm)
  refine ⟨fun i _ => lowTable_periodic i, fun i _ => lowTable_step i, ?_⟩
  rw [hnf]
  intro hcon
  injection hcon with hc1 hc2
  exact absurd hc1 (by norm_num)

theorem c8_amended_tet_witness :
    (∀ i, i + 12 ≤ 127 → tetTable (i + 12) = 2 * tetTable i) ∧
    (∀ i, i + 1 ≤ 127 → (21/20) * tetTable i ≤ tetTable (i + 1)) ∧
    10 < tetTable 114 ∧
    inferScaleSize tetTable = (12, 2) :=
  ⟨fun i _ => tetTable_periodic i, fun i _ => tetTable_step i, tetTable_gt10,
    c8_amended_tet tetTable (fun i _ => tetTable_periodic i)
      (fun i _ => tetTable_step i) tetTable_gt10⟩

theorem c2_periodic_recurrence_witness :
    inferScaleSize tetTable = (12, 2) ∧ (0 : ℤ) < 12 ∧ (128 : ℕ) ≤ 140 ∧
    ∃ ext, extendFrequencies tetTable 140 = some ext ∧
      ext 139 = ((2 : ℤ) : ℚ) * ext (139 - (12 : ℤ).toNat) := by
  obtain ⟨ext, hE, hrec⟩ :=
    c2_periodic_recurrence tetTable 12 2 140 tet_infer (by norm_num) (by norm_num)
  exact ⟨tet_infer, by norm_num, by norm_num, ext, hE,
    hrec 139 (by norm_num) (by norm_num)⟩

theorem c3_flat_continuation_witness :
    inferScaleSize (fun _ => 1) = (-1, -1) ∧ (128 : ℕ) ≤ 130 ∧
    ∃ ext, extendFrequencies (fun _ => 1) 130 = some ext ∧ ext 129 = ext 127 := by
  obtain ⟨ext, hE, hflat⟩ :=
    c3_flat_continuation (fun _ => 1) 130 one_infer (by norm_num)
  exact ⟨one_infer, by norm_num, ext, hE, hflat 129 (by norm_num) (by norm_num)⟩

theorem c4_prefix_unchanged_witness :
    (128 : ℕ) ≤ 128 ∧
    ∃ ext, extendFrequencies (fun _ => 1) 128 = some ext ∧ ext 0 = 1 := by
  obtain ⟨ext, hE, hpre⟩ := c4_prefix_unchanged (fun _ => 1) 128 (by norm_num)
  exact ⟨by norm_num, ext, hE, hpre 0 (by norm_num)⟩

theorem c5_scale_size_bound_witness :
    inferScaleSize tetTable = (12, 2) ∧ (12 : ℤ) ≠ -1 ∧
    ((1 ≤ (12 : ℤ) ∧ (12 : ℤ) ≤ 128) ∧ (extendFrequencies tetTable 130).isSome) := by
  obtain ⟨h1, h2⟩ :=
    c5_scale_size_bound tetTable 130 12 2 tet_infer (by norm_num)
  exact ⟨tet_infer, by norm_num, h1, h2⟩
